import Mathlib

set_option maxHeartbeats 1000000

/-
  Verification of the CodeDiary PR-sync pipeline.

  Shallow embedding of:
    - src/scripts/export-llm-payloads.js / src/scripts/sync.js
        (prToStem, prToLLMPackage, runSync's per-PR loop)
    - src/github/pr-fetcher.js
        (fetchMergedPRsForUser, enrichPR, getPRDiff, getReviewComments,
         getPRListFiles, extractLinkedIssues)
    - src/notion/blocks.js (markdownToNotionBlocks, richText chunking)
    - src/notion/cache.js (loadCache / saveCache, modelled as the disk image)

  JavaScript-specific semantics (truthiness of nullable strings, `||` and `??`
  operators, `Map` insertion order, object-key insertion order, regex
  backtracking for the two block regexes) are modelled explicitly below.
-/

namespace CodeDiary

/-- JavaScript truthiness of a nullable string value: `undefined`, `null`
and `""` are falsy, every other string is truthy. -/
def jsTruthy : Option String → Bool
  | none => false
  | some s => s ≠ ""

/-- JavaScript `a || b` on nullable string values. -/
def jsOr (a b : Option String) : Option String :=
  if jsTruthy a then a else b

/-- JavaScript `a || d` where `d` is a (truthy) string literal default. -/
def jsOrDefault (a : Option String) (d : String) : String :=
  if jsTruthy a then a.getD d else d

/-- JavaScript `a || null` (used for `f.patch || null`): an empty string
degrades to `null`. -/
def jsOrNull (a : Option String) : Option String :=
  if jsTruthy a then a else none

/-- The fields of a pull-request record that the scripts read: `repoFullName`
(attached by the collector), `base.repo.full_name`, `number`, `merged_at`,
`title`, `body`, `html_url`.  Absent or null string fields are `none`. -/
structure PRRec where
  repoFullName : Option String
  baseRepoFullName : Option String
  number : Nat
  merged_at : Option String
  title : Option String
  body : Option String
  html_url : String
deriving DecidableEq

/-- Model of `repoName.replace(/\//g, '_')`: every slash becomes an
underscore. -/
def slashToUnderscore (s : String) : String :=
  ⟨s.data.map fun c => if c = '/' then '_' else c⟩

/-- Model of `s.slice(0, 10)` (the date part of an ISO timestamp). -/
def strSlice10 (s : String) : String := ⟨s.data.take 10⟩

/-- The expression `pr.repoFullName || pr.base?.repo?.full_name || 'unknown'`
from `prToStem`. -/
def repoNameOf (pr : PRRec) : String :=
  jsOrDefault (jsOr pr.repoFullName pr.baseRepoFullName) "unknown"

/-- The expression `pr.merged_at ? pr.merged_at.slice(0, 10) : 'unknown'`
from `prToStem`. -/
def mergedSlot (pr : PRRec) : String :=
  match pr.merged_at with
  | some s => if s ≠ "" then strSlice10 s else "unknown"
  | none => "unknown"

/-- Function `prToStem` from `src/scripts/export-llm-payloads.js` (identical
copy in `sync.js`): `` `${safeRepo}_PR${pr.number}_${merged}` ``. -/
def prToStem (pr : PRRec) : String :=
  slashToUnderscore (repoNameOf pr) ++ "_PR" ++ Nat.repr pr.number ++ "_" ++ mergedSlot pr

/-- A review comment as read by the scripts: `path`, `body`, `diff_hunk`
(optional diff-context snippet). -/
structure ReviewComment where
  path : String
  body : String
  diff_hunk : Option String
deriving DecidableEq

/-- A linked issue stub `{ number, title, body }`. -/
structure LinkedIssue where
  number : Nat
  title : Option String
  body : Option String
deriving DecidableEq

/-- A changed-file descriptor from `pulls.listFiles`. -/
structure FileEntry where
  filename : String
  status : String
  additions : Nat
  deletions : Nat
  patch : Option String
deriving DecidableEq

/-- The state of the hunk-deduplication pass in `prToLLMPackage`: the
`hunkToId` map (JS `Map`, insertion-ordered), the `diffHunks` object
(insertion-ordered keys) and the running `hunkIndex`. -/
structure HunkState where
  hunkToId : List (String × String)
  diffHunks : List (String × String)
  hunkIndex : Nat
deriving DecidableEq

/-- One iteration of the hunk-table loop in `prToLLMPackage`:
`if (!h) continue; if (!hunkToId.has(h)) { assign next id }`. -/
def hunkStep (st : HunkState) (c : ReviewComment) : HunkState :=
  match c.diff_hunk with
  | none => st
  | some h =>
    if h = "" then st
    else if (st.hunkToId.lookup h).isSome then st
    else
      let hid := "hunk_" ++ Nat.repr (st.hunkIndex + 1)
      { hunkToId := st.hunkToId ++ [(h, hid)],
        diffHunks := st.diffHunks ++ [(hid, h)],
        hunkIndex := st.hunkIndex + 1 }

/-- The hunk-table loop of `prToLLMPackage` over all review comments. -/
def buildHunks (comments : List ReviewComment) : HunkState :=
  comments.foldl hunkStep ⟨[], [], 0⟩

/-- An output comment `{ path, body, hunkRef? }` of the assembled payload. -/
structure LLMComment where
  path : String
  body : String
  hunkRef : Option String
deriving DecidableEq

/-- The comment-mapping step of `prToLLMPackage`: `hunkRef` is set iff the
comment's `diff_hunk` is truthy, and holds `hunkToId.get(c.diff_hunk)`. -/
def commentOut (tbl : List (String × String)) (c : ReviewComment) : LLMComment :=
  match c.diff_hunk with
  | none => { path := c.path, body := c.body, hunkRef := none }
  | some h =>
    if h = "" then { path := c.path, body := c.body, hunkRef := none }
    else { path := c.path, body := c.body, hunkRef := tbl.lookup h }

/-- A `filesAndPatches` entry of the assembled payload. -/
structure FilePatch where
  filename : String
  status : String
  additions : Nat
  deletions : Nat
  patch : Option String
deriving DecidableEq

/-- The assembled LLM payload (metadata fields inlined). `diffHunks` is
`none` when the hunk table is empty (the field is omitted from the object). -/
structure LLMPackage where
  linkedIssues : List LinkedIssue
  title : Option String
  body : String
  mergedAt : Option String
  number : Nat
  htmlUrl : String
  filesAndPatches : List FilePatch
  comments : List LLMComment
  diffHunks : Option (List (String × String))
deriving DecidableEq

/-- An enriched PR: the record plus the three facets and linked issues,
as returned by `enrichPR`. -/
structure EnrichedPR where
  pr : PRRec
  diff : Option String
  reviewComments : List ReviewComment
  linkedIssues : List LinkedIssue
  listFiles : List FileEntry
deriving DecidableEq

/-- Function `prToLLMPackage` from the scripts. -/
def prToLLMPackage (e : EnrichedPR) : LLMPackage :=
  let filesAndPatches := e.listFiles.map fun f =>
    { filename := f.filename, status := f.status, additions := f.additions,
      deletions := f.deletions, patch := jsOrNull f.patch : FilePatch }
  let linked := e.linkedIssues.map fun i =>
    { number := i.number, title := i.title, body := i.body : LinkedIssue }
  let hs := buildHunks e.reviewComments
  let comments := e.reviewComments.map (commentOut hs.hunkToId)
  { linkedIssues := linked,
    title := e.pr.title,
    body := jsOrDefault e.pr.body "",
    mergedAt := e.pr.merged_at,
    number := e.pr.number,
    htmlUrl := e.pr.html_url,
    filesAndPatches := filesAndPatches,
    comments := comments,
    diffHunks := if hs.diffHunks = [] then none else some hs.diffHunks }

/-- Outcome of one remote call: the response data, or a thrown error. -/
inductive Fetch (α : Type)
  | ok (data : α)
  | err (msg : String)
deriving DecidableEq

/-- Function `getPRDiff` from `pr-fetcher.js`: returns the response body when
it is a string, `null` otherwise; a thrown error is caught and yields `null`.
The raw response is modelled as `Option String` (`some s` when the data is a
string, `none` when it is some non-string value). -/
def getPRDiff (r : Fetch (Option String)) : Option String :=
  match r with
  | .ok (some s) => some s
  | .ok none => none
  | .err _ => none

/-- Function `getReviewComments` from `pr-fetcher.js`: `data || []`, and a
thrown error is caught and yields `[]`. -/
def getReviewComments (r : Fetch (Option (List ReviewComment))) : List ReviewComment :=
  match r with
  | .ok (some l) => l
  | .ok none => []
  | .err _ => []

/-- Function `getPRListFiles` from `pr-fetcher.js`: `data || []`, and a
thrown error is caught and yields `[]`. -/
def getPRListFiles (r : Fetch (Option (List FileEntry))) : List FileEntry :=
  match r with
  | .ok (some l) => l
  | .ok none => []
  | .err _ => []

/-- Numeric value of a decimal digit character. -/
def digitVal (c : Char) : Nat := c.toNat - ('0').toNat

/-- Value of `parseInt(ds, 10)` on a nonempty digit string. -/
def parseDigits (ds : List Char) : Nat :=
  ds.foldl (fun a c => a * 10 + digitVal c) 0

/-- Function `extractLinkedIssues` from `pr-fetcher.js`: every match of the
global regex `#(\d+)` over the body, in order, as numbers. -/
def extractRefs : List Char → List Nat
  | [] => []
  | '#' :: rest =>
    let ds := rest.takeWhile Char.isDigit
    if ds.isEmpty then extractRefs rest
    else parseDigits ds :: extractRefs (rest.drop ds.length)
  | _ :: rest => extractRefs rest
termination_by l => l.length
decreasing_by
  all_goals simp [List.length_drop]
  all_goals omega

/-- Response data of `octokit.rest.issues.get` as read by `enrichPR`. -/
structure IssueData where
  title : Option String
  body : Option String
deriving DecidableEq

/-- The per-issue resolution inside `enrichPR`: on success,
`title = data.title ?? ''` and `body = data.body ?? ''`; a thrown lookup
error is caught and leaves both `null`. -/
def resolveIssue (issueR : Nat → Fetch IssueData) (n : Nat) : LinkedIssue :=
  match issueR n with
  | .ok d => { number := n, title := some (d.title.getD ""), body := some (d.body.getD "") }
  | .err _ => { number := n, title := none, body := none }

/-- Function `enrichPR` from `pr-fetcher.js`.  The three facet fetches are
independent remote calls whose outcomes are the parameters `diffR`,
`commentsR`, `filesR`; each linked-issue lookup outcome is given by
`issueR`. -/
def enrichPR (diffR : Fetch (Option String)) (commentsR : Fetch (Option (List ReviewComment)))
    (filesR : Fetch (Option (List FileEntry))) (issueR : Nat → Fetch IssueData)
    (pr : PRRec) : EnrichedPR :=
  let pullPatch := getPRDiff diffR
  let reviewComments := getReviewComments commentsR
  let listFiles := getPRListFiles filesR
  let rawLinked := extractRefs (jsOrDefault pr.body "").data
  let linkedIssues := rawLinked.map (resolveIssue issueR)
  { pr := pr, diff := pullPatch, reviewComments := reviewComments,
    linkedIssues := linkedIssues, listFiles := listFiles }

/-- A search hit (issue-shaped) from the paginated search. -/
structure SearchItem where
  number : Nat
  repository_url : String
deriving DecidableEq

/-- The full pull-request record returned by `pulls.get`. -/
structure FullPR where
  number : Nat
  title : Option String
  body : Option String
  merged_at : Option String
  html_url : String
  baseRepoFullName : String
deriving DecidableEq

/-- Owner segment of `item.repository_url.split('/').slice(-2)[0]`. -/
def urlOwner (u : String) : String := ((u.splitOn "/").reverse.drop 1).headD ""

/-- Repo segment of `item.repository_url.split('/').slice(-1)[0]`. -/
def urlRepo (u : String) : String := (u.splitOn "/").getLastD ""

/-- The record pushed by `fetchMergedPRsForUser`:
`{ ...full.data, repoFullName: full.data.base.repo.full_name }`. -/
def collectedOf (f : FullPR) : PRRec :=
  { repoFullName := some f.baseRepoFullName,
    baseRepoFullName := some f.baseRepoFullName,
    number := f.number, merged_at := f.merged_at,
    title := f.title, body := f.body, html_url := f.html_url }

/-- The per-page body of `fetchMergedPRsForUser`: resolve each search hit via
`pulls.get` and keep it iff `full.data.merged_at` is truthy. -/
def pageCollect (getFull : String → String → Nat → FullPR) (items : List SearchItem) :
    List PRRec :=
  items.filterMap fun it =>
    let full := getFull (urlOwner it.repository_url) (urlRepo it.repository_url) it.number
    if jsTruthy full.merged_at then some (collectedOf full) else none

/-- Pagination loop of `fetchMergedPRsForUser`.  `search` yields the items of
each page number; `fuel` bounds the number of pages visited (the JS loop runs
until a short or empty page, so every finite execution is an instance of some
fuel). -/
def fetchLoop (search : Nat → List SearchItem) (getFull : String → String → Nat → FullPR) :
    Nat → Nat → List PRRec
  | 0, _ => []
  | fuel + 1, page =>
    let items := search page
    if items.length = 0 then []
    else
      let got := pageCollect getFull items
      if items.length < 30 then got
      else got ++ fetchLoop search getFull fuel (page + 1)

/-- Function `fetchMergedPRsForUser` from `pr-fetcher.js` (starts at page 1). -/
def fetchMergedPRsForUser (search : Nat → List SearchItem)
    (getFull : String → String → Nat → FullPR) (fuel : Nat) : List PRRec :=
  fetchLoop search getFull fuel 1

/-- The sync cache: a JSON object mapping stems to completion markers,
modelled as an insertion-ordered association list. -/
abbrev Cache := List (String × Bool)

/-- Keys of a cache image. -/
def cacheKeys (c : Cache) : List String := c.map Prod.fst

/-- Truthiness of `cache[stem]`. -/
def cacheHit (c : Cache) (k : String) : Bool :=
  match c.lookup k with
  | some b => b
  | none => false

/-- The JS assignment `cache[stem] = true` on an object: overwrite in place
when the key exists, append the key otherwise. -/
def cacheSet (c : Cache) (k : String) : Cache :=
  if (c.lookup k).isSome then c.map (fun p => if p.1 = k then (p.1, true) else p)
  else c ++ [(k, true)]

/-- Observable state of one `runSync` invocation: the in-memory cache image,
the trace of successful note-store append calls (stem, summary markdown), the
trace of PRs whose enrichment was started, the console lines of the per-PR
loop, and the durable cache file contents. -/
structure SyncState where
  cache : Cache
  appends : List (String × String)
  processed : List String
  log : List String
  disk : Cache
deriving DecidableEq

/-- One iteration of `runSync`'s per-PR loop in `sync.js`: the cached-skip
test, then `enrichPR → prToLLMPackage → summarizePR → appendSummaryToPage`,
then `cache[stem] = true`.  The enrich/assemble/summarize/append sequence is
modelled by the oracle `eff`, deterministic in the PR (the remote data is
fixed when comparing runs): `.ok summary` when the sequence reaches a
successful append, `.err msg` when any of its steps throws; in that case the
catch block logs and the loop moves on. -/
def processPR (eff : PRRec → Fetch String) (force : Bool) (total : Nat)
    (i : Nat) (st : SyncState) (pr : PRRec) : SyncState :=
  let stem := prToStem pr
  let repo := jsOrDefault (jsOr pr.repoFullName pr.baseRepoFullName) "?"
  let tag := "[" ++ Nat.repr (i + 1) ++ "/" ++ Nat.repr total ++ "] "
  if cacheHit st.cache stem && !force then
    { st with log := st.log ++ [tag ++ stem ++ " -> cached"] }
  else
    match eff pr with
    | .ok summary =>
      { st with
        processed := st.processed ++ [stem],
        appends := st.appends ++ [(stem, summary)],
        cache := cacheSet st.cache stem,
        log := st.log ++ [tag ++ repo ++ " #" ++ Nat.repr pr.number ++ " - enriching...",
                          tag ++ stem ++ " -> appended"] }
    | .err msg =>
      { st with
        processed := st.processed ++ [stem],
        log := st.log ++ [tag ++ repo ++ " #" ++ Nat.repr pr.number ++ " - enriching...",
                          tag ++ stem ++ " FAILED: " ++ msg] }

/-- The per-PR loop of `runSync` with its running index. -/
def runLoop (eff : PRRec → Fetch String) (force : Bool) (total : Nat) :
    Nat → SyncState → List PRRec → SyncState
  | _, st, [] => st
  | i, st, pr :: rest =>
    runLoop eff force total (i + 1) (processPR eff force total i st pr) rest

/-- Initial state of a run: `const cache = force ? {} : await loadCache(...)`,
where the loaded image is the durable file contents `disk0`. -/
def initState (force : Bool) (disk0 : Cache) : SyncState :=
  { cache := if force then [] else disk0,
    appends := [], processed := [], log := [], disk := disk0 }

/-- Function `runSync` from `sync.js` after PR selection (`prs` is the
already-sliced list): the per-PR loop followed by `saveCache`, which rewrites
the durable file from the in-memory image. -/
def runSync (eff : PRRec → Fetch String) (force : Bool) (disk0 : Cache)
    (prs : List PRRec) : SyncState :=
  let st := runLoop eff force prs.length 0 (initState force disk0) prs
  { st with disk := st.cache }

/-- State after the first `k` iterations of the per-PR loop (no `saveCache`
has run yet). -/
def runSyncPrefix (eff : PRRec → Fetch String) (force : Bool) (disk0 : Cache)
    (prs : List PRRec) (k : Nat) : SyncState :=
  runLoop eff force prs.length 0 (initState force disk0) (prs.take k)

/-- The character class `\s` of JavaScript regexes (also the set removed by
`String.prototype.trim`): ASCII whitespace, NBSP, the Unicode space
separators, line/paragraph separators and the BOM. -/
def isJsWS (c : Char) : Bool :=
  c = ' ' || c = '\t' || c = '\n' || c.toNat = 0x0B || c.toNat = 0x0C || c = '\r' ||
  c.toNat = 0xA0 || c.toNat = 0x1680 || (0x2000 ≤ c.toNat && c.toNat ≤ 0x200A) ||
  c.toNat = 0x2028 || c.toNat = 0x2029 || c.toNat = 0x202F || c.toNat = 0x205F ||
  c.toNat = 0x3000 || c.toNat = 0xFEFF

/-- JavaScript line terminators, which the regex `.` does not match. -/
def isLineTerm (c : Char) : Bool :=
  c = '\n' || c = '\r' || c.toNat = 0x2028 || c.toNat = 0x2029

/-- Model of `line.trim()`. -/
def jsTrimL (l : List Char) : List Char :=
  ((l.dropWhile isJsWS).reverse.dropWhile isJsWS).reverse

/-- Model of `markdown.split(/\r?\n/)`: split at each `\n`, absorbing a `\r`
immediately before it into the separator. -/
def splitLines : List Char → List (List Char)
  | [] => [[]]
  | '\r' :: '\n' :: rest => [] :: splitLines rest
  | '\n' :: rest => [] :: splitLines rest
  | c :: rest =>
    match splitLines rest with
    | piece :: more => (c :: piece) :: more
    | [] => [[c]]

/-- Scan of the heading regex `^(?:-\s*)?\*\*(.+?)\*\*\s*$` after the opening
`**` has been consumed: the lazy group grows one character at a time, trying
the closing `\*\*\s*$` before each extension; the dot cannot cross a line
terminator. `acc` is the reversed capture so far. -/
def closesHeading (c : Char) (rest : List Char) : Bool :=
  c = '*' && (match rest with
    | '*' :: rem => rem.all isJsWS
    | _ => false)

/-- The one-character-at-a-time scan itself (see `closesHeading` for the
closing test `\*\*\s*$`). -/
def hscan (acc : List Char) : List Char → Option (List Char)
  | [] => none
  | c :: rest =>
    if !acc.isEmpty && closesHeading c rest then
      some acc.reverse
    else if isLineTerm c then none
    else hscan (c :: acc) rest

/-- The heading regex `^(?:-\s*)?\*\*(.+?)\*\*\s*$` applied to a trimmed
line; returns the capture on a match.  The optional group can only succeed
when the line starts with `-` (and `**` can never match a `-`), so it is the
conditional strip of a leading dash and subsequent whitespace. -/
def headingMatch (t : List Char) : Option (List Char) :=
  let t2 := match t with
    | '-' :: rest => rest.dropWhile isJsWS
    | _ => t
  match t2 with
  | '*' :: '*' :: rest => hscan [] rest
  | _ => none

/-- The tail `(.+)$` of the bullet regex on the remaining characters:
matches the whole remainder iff it is nonempty and free of line
terminators. -/
def dotPlusEnd (l : List Char) : Option (List Char) :=
  if l ≠ [] ∧ l.all (fun c => !isLineTerm c) then some l else none

/-- The tail `\s*(.+)$` of the bullet regex, with greedy `\s*` and
backtracking: consume as much whitespace as possible, giving characters back
one at a time until `(.+)$` succeeds. -/
def wsThenRest : List Char → Option (List Char)
  | [] => none
  | c :: rest =>
    if isJsWS c then
      match wsThenRest rest with
      | some cap => some cap
      | none => dotPlusEnd (c :: rest)
    else dotPlusEnd (c :: rest)

/-- The bullet regex `^\*+\s*(.+)$` after at least one star has been
consumed, with greedy `\*+` and backtracking: prefer consuming further stars,
fall back to starting `\s*(.+)$` at the current position. -/
def starPlus : List Char → Option (List Char)
  | '*' :: rest =>
    (match starPlus rest with
     | some cap => some cap
     | none => wsThenRest ('*' :: rest))
  | l => wsThenRest l

/-- The bullet regex `^\*+\s*(.+)$` applied to a trimmed line; returns the
capture on a match. -/
def bulletMatch (t : List Char) : Option (List Char) :=
  match t with
  | '*' :: rest => starPlus rest
  | _ => none

/-- Notion block types produced by `markdownToNotionBlocks`. -/
inductive BlockType
  | heading_2
  | bulleted_list_item
  | paragraph
deriving DecidableEq

/-- The chunking `while` loop of `richText` in `blocks.js`, with an explicit
iteration bound: each iteration removes at least one character from the
remainder, so `l.length` bounds the number of iterations and
`chunksGo l.length l` is exactly the loop. -/
def chunksGo (fuel : Nat) (l : List Char) : List (List Char) :=
  match fuel, l with
  | _, [] => []
  | 0, _ => []
  | f + 1, l => l.take 2000 :: chunksGo f (l.drop 2000)

/-- Chunking of `richText` in `blocks.js`: slices of at most 2000
characters while the remainder is nonempty. -/
def chunksOf (l : List Char) : List (List Char) :=
  chunksGo l.length l

/-- Function `richText` from `blocks.js`: the content chunked at 2000
characters, each chunk carrying its bold annotation. -/
def richText (content : String) (bold : Bool) : List (String × Bool) :=
  (chunksOf content.data).map fun ch => (⟨ch⟩, bold)

/-- A Notion block as built by `block(type, content, bold)`. -/
structure NotionBlock where
  type : BlockType
  rich_text : List (String × Bool)
deriving DecidableEq

/-- Function `block` from `blocks.js`. -/
def mkBlock (ty : BlockType) (content : String) (bold : Bool) : NotionBlock :=
  { type := ty, rich_text := richText content bold }

/-- The per-line body of `markdownToNotionBlocks`: blank (falsy) trimmed
lines are dropped, then the heading regex, the bullet regex and the
paragraph fallback are tried in that order. -/
def lineToBlock (trimmed : List Char) : Option NotionBlock :=
  if trimmed = [] then none
  else match headingMatch trimmed with
  | some mid => some (mkBlock .heading_2 ⟨mid⟩ false)
  | none =>
    match bulletMatch trimmed with
    | some cap => some (mkBlock .bulleted_list_item ⟨cap⟩ false)
    | none => some (mkBlock .paragraph ⟨trimmed⟩ false)

/-- Function `markdownToNotionBlocks` from `src/notion/blocks.js`. -/
def markdownToNotionBlocks (markdown : String) : List NotionBlock :=
  (splitLines markdown.data).filterMap fun line => lineToBlock (jsTrimL line)

/-- Whether a fetch outcome is a thrown error. -/
def fetchErr {α : Type} : Fetch α → Bool
  | .ok _ => false
  | .err _ => true

/- Spec-side definitions (written from the specification's words, for
comparison with the code-side definitions above). -/

/-- Spec-side: the sequence of non-empty diff-context texts of a comment
list, in comment order. -/
def truthyHunks (cs : List ReviewComment) : List String :=
  cs.filterMap fun c =>
    match c.diff_hunk with
    | some h => if h = "" then none else some h
    | none => none

/-- Spec-side: first-seen de-duplication, relative to an already-seen set. -/
def firstSeenFrom (seen : List String) : List String → List String
  | [] => []
  | h :: t =>
    if h ∈ seen then firstSeenFrom seen t
    else h :: firstSeenFrom (h :: seen) t

/-- Spec-side: the distinct values of a list, in first-seen order. -/
def firstSeen (hs : List String) : List String :=
  firstSeenFrom [] hs

/-- Spec-side: assign sequential identifiers `hunk_{base+1}, hunk_{base+2},
...` to a list of context texts. -/
def tagFrom (base : Nat) : List String → List (String × String)
  | [] => []
  | h :: t => ("hunk_" ++ Nat.repr (base + 1), h) :: tagFrom (base + 1) t

/-- Decimal digit characters of a natural number, most significant first
(the reference rendering that `Nat.repr` is proved below to agree with). -/
def decimalDigits (n : Nat) : List Char :=
  if n = 0 then ['0'] else ((Nat.digits 10 n).map Nat.digitChar).reverse

/- Concrete fixtures used by the closed witness / counterexample theorems. -/

/-- Fixture: the PR of the spec's stem-derivation example
(repo "acme/widgets", number 42, merged 2024-03-05). -/
def prAcme : PRRec :=
  { repoFullName := some "acme/widgets", baseRepoFullName := none, number := 42,
    merged_at := some "2024-03-05T10:00:00Z", title := some "t", body := some "b",
    html_url := "https://example.com/pr/42" }

/-- Fixture: a PR with no merge date. -/
def prNoDate : PRRec :=
  { prAcme with merged_at := none, number := 7 }

/-- Fixture: a PR with no repo name in either slot. -/
def prNoRepo : PRRec :=
  { prAcme with repoFullName := none, baseRepoFullName := none, number := 9 }

/-- Fixture: repo "a/b", number 1, merged 2024-03-05, 10:00. -/
def prSlash : PRRec :=
  { prAcme with repoFullName := some "a/b", number := 1 }

/-- Fixture: repo "a_b", number 1, merged 2024-03-05, 11:00 — a different
(repo full name, number, merge date) triple than `prSlash`. -/
def prUnderscore : PRRec :=
  { prAcme with
    repoFullName := some "a_b"
    number := 1
    merged_at := some "2024-03-05T11:00:00Z" }

/-- Fixture: three review comments sharing one diff context. -/
def commentsSame : List ReviewComment :=
  [⟨"f.js", "c1", some "@@ctx"⟩, ⟨"g.js", "c2", some "@@ctx"⟩, ⟨"h.js", "c3", some "@@ctx"⟩]

/-- Fixture: comments with contexts A, B, A, C in that order. -/
def commentsABAC : List ReviewComment :=
  [⟨"f.js", "c1", some "ctxA"⟩, ⟨"g.js", "c2", some "ctxB"⟩,
   ⟨"h.js", "c3", some "ctxA"⟩, ⟨"i.js", "c4", some "ctxC"⟩]

/-- Fixture: an enriched PR holding `commentsSame`. -/
def enrichedSame : EnrichedPR :=
  { pr := prAcme, diff := some "d", reviewComments := commentsSame,
    linkedIssues := [], listFiles := [] }

/-- Fixture: an enriched PR holding `commentsABAC`. -/
def enrichedABAC : EnrichedPR :=
  { pr := prAcme, diff := some "d", reviewComments := commentsABAC,
    linkedIssues := [], listFiles := [] }

/-- Fixture: a search page with one merged and one unmerged hit. -/
def searchTwo : Nat → List SearchItem :=
  fun page => if page = 1 then
    [⟨1, "https://api.example.com/repos/acme/widgets"⟩,
     ⟨2, "https://api.example.com/repos/acme/widgets"⟩]
  else []

/-- Fixture: the resolver for `searchTwo`: pull 1 is merged, pull 2 is not. -/
def getFullTwo : String → String → Nat → FullPR :=
  fun _ _ n =>
    if n = 1 then
      { number := 1, title := some "t1", body := some "", merged_at := some "2024-03-05T10:00:00Z",
        html_url := "u1", baseRepoFullName := "acme/widgets" }
    else
      { number := n, title := some "t2", body := some "", merged_at := none,
        html_url := "u2", baseRepoFullName := "acme/widgets" }

/-- Fixture: an effect oracle on which every PR's
enrich/summarize/append sequence succeeds. -/
def effOk : PRRec → Fetch String := fun _ => .ok "summary"

/-- Fixture: an effect oracle on which every PR's sequence throws. -/
def effBad : PRRec → Fetch String := fun _ => .err "boom"

/- Helper lemmas. -/

theorem jsTruthy_ne_none {o : Option String} (h : jsTruthy o = true) : o ≠ none := by
  cases o with
  | none => simp [jsTruthy] at h
  | some s => simp

theorem mergedSlot_of_falsy (pr : PRRec) (h : jsTruthy pr.merged_at = false) :
    mergedSlot pr = "unknown" := by
  unfold mergedSlot
  cases hm : pr.merged_at with
  | none => rfl
  | some s =>
    rw [hm] at h
    simp [jsTruthy] at h
    simp [h]

theorem mem_pageCollect {getFull : String → String → Nat → FullPR}
    {items : List SearchItem} {pr : PRRec} (h : pr ∈ pageCollect getFull items) :
    pr.merged_at ≠ none := by
  rcases List.mem_filterMap.mp h with ⟨it, _, hit⟩
  dsimp only at hit
  split at hit
  case isTrue htr =>
    cases hit
    exact jsTruthy_ne_none htr
  case isFalse => exact absurd hit (by simp)

/- Claim theorems. -/

/-- C8: stem derivation is `{repo}_PR{number}_{date}` with the literal token
"unknown" substituted for a missing repo name or merge date: the spec's
concrete example evaluates to "acme_widgets_PR42_2024-03-05", a PR without a
merge date derives a stem ending in "_unknown", and a PR without a repo name
derives a stem whose repo slot is "unknown". -/
theorem C8_stem_derivation :
    prToStem prAcme = "acme_widgets_PR42_2024-03-05" ∧
    (∀ pr : PRRec, jsTruthy pr.merged_at = false →
      ∃ p : String, prToStem pr = p ++ "_unknown") ∧
    (∀ pr : PRRec, jsTruthy pr.repoFullName = false → jsTruthy pr.baseRepoFullName = false →
      prToStem pr = "unknown_PR" ++ Nat.repr pr.number ++ "_" ++ mergedSlot pr) := by
  refine ⟨by decide, ?_, ?_⟩
  · intro pr h
    refine ⟨slashToUnderscore (repoNameOf pr) ++ "_PR" ++ Nat.repr pr.number, ?_⟩
    apply String.ext
    simp [prToStem, mergedSlot_of_falsy pr h, String.data_append]
  · intro pr h1 h2
    have e1 : jsOr pr.repoFullName pr.baseRepoFullName = pr.baseRepoFullName := by
      simp [jsOr, h1]
    have e2 : repoNameOf pr = "unknown" := by
      simp [repoNameOf, e1, jsOrDefault, h2]
    have e3 : slashToUnderscore "unknown" = "unknown" := by decide
    have e4 : ("unknown" : String) ++ "_PR" = "unknown_PR" := by decide
    unfold prToStem
    rw [e2, e3, e4]

theorem C8_stem_derivation_witness :
    (∃ p : String, prToStem prNoDate = p ++ "_unknown") ∧
    prToStem prNoRepo = "unknown_PR" ++ Nat.repr prNoRepo.number ++ "_" ++ mergedSlot prNoRepo :=
  ⟨C8_stem_derivation.2.1 prNoDate (by decide),
   C8_stem_derivation.2.2 prNoRepo (by decide) (by decide)⟩

/-- C2 counterexample: when the diff fetch throws, `enrichPR` degrades the
diff facet to `null` (`none`), not to the empty text the claim states. -/
theorem C2_counterexample :
    (enrichPR (.err "boom") (.ok (some [])) (.ok (some [])) (fun _ => .err "x") prAcme).diff
      = none ∧
    (enrichPR (.err "boom") (.ok (some [])) (.ok (some [])) (fun _ => .err "x") prAcme).diff
      ≠ some "" :=
  ⟨rfl, fun h => Option.noConfusion h⟩

/-- C2 amended: the three facet fetches are independent calls; a facet whose
fetch throws degrades to its neutral value — `null` for the diff, the empty
list for files and for comments — while the other two facets and the overall
enrichment result are unchanged; and a diff fetch that succeeds with a
string yields exactly that (non-null) string even when the review-comments
fetch throws. -/
theorem C2_facet_isolation (dR : Fetch (Option String))
    (cR : Fetch (Option (List ReviewComment))) (fR : Fetch (Option (List FileEntry)))
    (iR : Nat → Fetch IssueData) (pr : PRRec) (msg : String) :
    enrichPR dR (.err msg) fR iR pr = { enrichPR dR cR fR iR pr with reviewComments := [] } ∧
    enrichPR (.err msg) cR fR iR pr = { enrichPR dR cR fR iR pr with diff := none } ∧
    enrichPR dR cR (.err msg) iR pr = { enrichPR dR cR fR iR pr with listFiles := [] } ∧
    (∀ s, dR = .ok (some s) → (enrichPR dR (.err msg) fR iR pr).diff = some s) := by
  refine ⟨rfl, rfl, rfl, ?_⟩
  intro s h
  subst h
  rfl

theorem C2_facet_isolation_witness :
    (enrichPR (.ok (some "diff")) (.err "boom") (.ok (some [])) (fun _ => .err "x")
      prAcme).diff = some "diff" :=
  (C2_facet_isolation (.ok (some "diff")) (.ok (some [])) (.ok (some []))
    (fun _ => .err "x") prAcme "boom").2.2.2 "diff" rfl

/-- C4: every record returned by the Remote Collector carries a non-null
merge timestamp (a resolved hit whose full record lacks one is discarded),
and on a search page with one merged and one unmerged hit exactly the merged
record is returned. -/
theorem C4_merged_only :
    (∀ (search : Nat → List SearchItem) (getFull : String → String → Nat → FullPR)
       (fuel page : Nat) (pr : PRRec),
       pr ∈ fetchLoop search getFull fuel page → pr.merged_at ≠ none) ∧
    fetchMergedPRsForUser searchTwo getFullTwo 1 = [collectedOf (getFullTwo "acme" "widgets" 1)] := by
  constructor
  · intro search getFull fuel
    induction fuel with
    | zero => intro page pr h; simp [fetchLoop] at h
    | succ f ih =>
      intro page pr h
      rw [fetchLoop] at h
      by_cases h0 : (search page).length = 0
      · simp [h0] at h
      · simp only [h0, if_false] at h
        by_cases h30 : (search page).length < 30
        · simp only [h30, if_true] at h
          exact mem_pageCollect h
        · simp only [h30, if_false] at h
          rcases List.mem_append.mp h with h' | h'
          · exact mem_pageCollect h'
          · exact ih (page + 1) pr h'
  · simp [fetchMergedPRsForUser, fetchLoop, searchTwo, pageCollect, getFullTwo, jsTruthy]

theorem cacheHit_iff {c : Cache} {k : String} : cacheHit c k = true ↔ c.lookup k = some true := by
  unfold cacheHit
  cases h : c.lookup k with
  | none => simp
  | some b => cases b <;> simp

theorem lookup_setMap_self (k : String) :
    ∀ c : Cache, (c.lookup k).isSome →
      (c.map (fun p => if p.1 = k then (p.1, true) else p)).lookup k = some true := by
  intro c
  induction c with
  | nil => simp
  | cons a t ih =>
    obtain ⟨a1, a2⟩ := a
    intro h
    by_cases hk : a1 = k
    · subst hk
      simp [List.lookup_cons]
    · have hne : (k == a1) = false := by simp [Ne.symm hk]
      simp only [List.map_cons, if_neg (by simpa using hk), List.lookup_cons, hne] at h ⊢
      exact ih (by simpa [List.lookup_cons, hne] using h)

theorem lookup_setMap_mono (k k' : String) :
    ∀ c : Cache, c.lookup k = some true →
      (c.map (fun p => if p.1 = k' then (p.1, true) else p)).lookup k = some true := by
  intro c
  induction c with
  | nil => simp
  | cons a t ih =>
    obtain ⟨a1, a2⟩ := a
    intro h
    by_cases h1 : a1 = k'
    all_goals by_cases hk : k == a1
    · have hkk : (k == k') = true := h1 ▸ hk
      simp [List.lookup_cons, h1, hk, hkk]
    · have ht : t.lookup k = some true := by simpa [List.lookup_cons, hk] using h
      have hkf : (k == a1) = false := Bool.not_eq_true _ |>.mp hk
      simp only [List.map_cons, if_pos h1, List.lookup_cons, hkf]
      exact ih ht
    · have hb : a2 = true := by simpa [List.lookup_cons, hk] using h
      simp [List.lookup_cons, h1, hk, hb]
    · have ht : t.lookup k = some true := by simpa [List.lookup_cons, hk] using h
      simp [List.lookup_cons, h1, hk, ih ht]

theorem cacheHit_cacheSet_self (c : Cache) (k : String) : cacheHit (cacheSet c k) k = true := by
  rw [cacheHit_iff]
  unfold cacheSet
  split
  case isTrue h => exact lookup_setMap_self k c h
  case isFalse h =>
    rw [List.lookup_append]
    cases hl : c.lookup k with
    | none => simp
    | some b => simp [hl] at h

theorem cacheHit_cacheSet_mono {c : Cache} {k : String} (h : cacheHit c k = true) (k' : String) :
    cacheHit (cacheSet c k') k = true := by
  rw [cacheHit_iff] at h ⊢
  unfold cacheSet
  split
  · exact lookup_setMap_mono k k' c h
  · rw [List.lookup_append, h]
    rfl

theorem cacheKeys_setMap (c : Cache) (k : String) :
    cacheKeys (c.map (fun p => if p.1 = k then (p.1, true) else p)) = cacheKeys c := by
  unfold cacheKeys
  rw [List.map_map]
  apply List.map_congr_left
  intro p _
  dsimp only [Function.comp]
  split <;> rfl

theorem cacheKeys_cacheSet {c : Cache} {k k' : String}
    (h : k' ∈ cacheKeys (cacheSet c k)) : k' ∈ cacheKeys c ∨ k' = k := by
  unfold cacheSet at h
  split at h
  · rw [cacheKeys_setMap] at h
    exact Or.inl h
  · unfold cacheKeys at h
    rw [List.map_append] at h
    rcases List.mem_append.mp h with h' | h'
    · exact Or.inl h'
    · right
      simpa using h'

theorem processPR_hit_mono {eff : PRRec → Fetch String} {force : Bool} {total i : Nat}
    {st : SyncState} {pr : PRRec} {k : String} (h : cacheHit st.cache k = true) :
    cacheHit (processPR eff force total i st pr).cache k = true := by
  simp only [processPR]
  split
  · simpa using h
  · split
    · simpa using cacheHit_cacheSet_mono h _
    · simpa using h

theorem processPR_disk {eff : PRRec → Fetch String} {force : Bool} {total i : Nat}
    {st : SyncState} {pr : PRRec} : (processPR eff force total i st pr).disk = st.disk := by
  simp only [processPR]
  split
  · rfl
  · split <;> rfl

theorem runLoop_hit_mono (eff : PRRec → Fetch String) (force : Bool) (total : Nat) :
    ∀ (prs : List PRRec) (i : Nat) (st : SyncState) (k : String),
      cacheHit st.cache k = true →
      cacheHit (runLoop eff force total i st prs).cache k = true := by
  intro prs
  induction prs with
  | nil => intro i st k h; exact h
  | cons pr rest ih =>
    intro i st k h
    exact ih _ _ k (processPR_hit_mono h)

theorem runLoop_disk (eff : PRRec → Fetch String) (force : Bool) (total : Nat) :
    ∀ (prs : List PRRec) (i : Nat) (st : SyncState),
      (runLoop eff force total i st prs).disk = st.disk := by
  intro prs
  induction prs with
  | nil => intro i st; rfl
  | cons pr rest ih =>
    intro i st
    rw [runLoop, ih, processPR_disk]

theorem runLoop_covers (eff : PRRec → Fetch String) (total : Nat) :
    ∀ (prs : List PRRec) (i : Nat) (st : SyncState) (pr : PRRec), pr ∈ prs →
      cacheHit (runLoop eff false total i st prs).cache (prToStem pr) = true ∨
      fetchErr (eff pr) = true := by
  intro prs
  induction prs with
  | nil => intro i st pr h; exact absurd h (List.not_mem_nil pr)
  | cons pr0 rest ih =>
    intro i st pr h
    rcases List.mem_cons.mp h with h0 | hr
    · subst h0
      rw [runLoop]
      cases he : eff pr with
      | ok s =>
        left
        apply runLoop_hit_mono
        simp only [processPR]
        split
        case isTrue hc =>
          simpa using (Bool.and_eq_true _ _ |>.mp hc).1
        case isFalse hc =>
          rw [he]
          simpa using cacheHit_cacheSet_self st.cache (prToStem pr)
      | err m =>
        right
        simp [fetchErr, he]
    · exact ih _ _ pr hr

theorem runLoop_stable (eff : PRRec → Fetch String) (total : Nat) :
    ∀ (prs : List PRRec) (i : Nat) (st : SyncState),
      (∀ pr ∈ prs, cacheHit st.cache (prToStem pr) = true ∨ fetchErr (eff pr) = true) →
      (runLoop eff false total i st prs).cache = st.cache ∧
      (runLoop eff false total i st prs).appends = st.appends ∧
      (runLoop eff false total i st prs).disk = st.disk := by
  intro prs
  induction prs with
  | nil => intro i st _; exact ⟨rfl, rfl, rfl⟩
  | cons pr0 rest ih =>
    intro i st h
    rw [runLoop]
    have step : (processPR eff false total i st pr0).cache = st.cache ∧
        (processPR eff false total i st pr0).appends = st.appends ∧
        (processPR eff false total i st pr0).disk = st.disk := by
      rcases h pr0 (List.mem_cons_self pr0 rest) with hc | he
      · simp only [processPR]
        rw [if_pos (by simp [hc])]
        exact ⟨rfl, rfl, rfl⟩
      · simp only [processPR]
        split
        · exact ⟨rfl, rfl, rfl⟩
        · cases heff : eff pr0 with
          | ok s => rw [heff] at he; simp [fetchErr] at he
          | err m => exact ⟨rfl, rfl, rfl⟩
    have hrest : ∀ pr ∈ rest,
        cacheHit (processPR eff false total i st pr0).cache (prToStem pr) = true ∨
        fetchErr (eff pr) = true := by
      intro pr hpr
      rcases h pr (List.mem_cons_of_mem pr0 hpr) with hc | he
      · exact Or.inl (step.1 ▸ hc)
      · exact Or.inr he
    rcases ih (i + 1) (processPR eff false total i st pr0) hrest with ⟨e1, e2, e3⟩
    exact ⟨e1.trans step.1, e2.trans step.2.1, e3.trans step.2.2⟩

/-- C3: cache idempotence.  Running the same selection of PRs a second time,
starting from the cache file the first run persisted and without force,
issues zero note-store append calls and leaves both the in-memory image and
the persisted cache file exactly as the first run left them (PRs cached by
the first run are skipped; PRs whose processing failed fail identically on
the deterministic oracle and never record a cache entry). -/
theorem C3_cache_idempotence (eff : PRRec → Fetch String) (disk0 : Cache)
    (prs : List PRRec) :
    (runSync eff false ((runSync eff false disk0 prs).disk) prs).appends = [] ∧
    (runSync eff false ((runSync eff false disk0 prs).disk) prs).cache =
      (runSync eff false disk0 prs).disk ∧
    (runSync eff false ((runSync eff false disk0 prs).disk) prs).disk =
      (runSync eff false disk0 prs).disk := by
  have hdisk : (runSync eff false disk0 prs).disk =
      (runLoop eff false prs.length 0 (initState false disk0) prs).cache := rfl
  have hcov : ∀ pr ∈ prs,
      cacheHit (runSync eff false disk0 prs).disk (prToStem pr) = true ∨
      fetchErr (eff pr) = true := by
    intro pr hpr
    rw [hdisk]
    exact runLoop_covers eff prs.length prs 0 (initState false disk0) pr hpr
  have hinit : (initState false ((runSync eff false disk0 prs).disk)).cache =
      (runSync eff false disk0 prs).disk := rfl
  have hs := runLoop_stable eff prs.length prs 0
    (initState false ((runSync eff false disk0 prs).disk))
    (by intro pr hpr; rw [hinit]; exact hcov pr hpr)
  refine ⟨hs.2.1, ?_, ?_⟩
  · show (runLoop eff false prs.length 0
      (initState false ((runSync eff false disk0 prs).disk)) prs).cache = _
    exact hs.1
  · show (runLoop eff false prs.length 0
      (initState false ((runSync eff false disk0 prs).disk)) prs).cache = _
    exact hs.1

theorem processPR_obs (eff : PRRec → Fetch String) (force : Bool) (total i : Nat)
    (st : SyncState) (pr : PRRec) :
    ((processPR eff force total i st pr).cache = st.cache ∧
     (processPR eff force total i st pr).appends = st.appends) ∨
    (∃ s, eff pr = .ok s ∧
      (processPR eff force total i st pr).cache = cacheSet st.cache (prToStem pr) ∧
      (processPR eff force total i st pr).appends = st.appends ++ [(prToStem pr, s)]) := by
  simp only [processPR]
  split
  · exact Or.inl ⟨rfl, rfl⟩
  · split
    next s he => exact Or.inr ⟨s, he, rfl, rfl⟩
    next m he => exact Or.inl ⟨rfl, rfl⟩

theorem runLoop_appends_recorded (eff : PRRec → Fetch String) (force : Bool) (total : Nat) :
    ∀ (prs : List PRRec) (i : Nat) (st : SyncState),
      (∀ p ∈ st.appends, cacheHit st.cache p.1 = true) →
      ∀ p ∈ (runLoop eff force total i st prs).appends,
        cacheHit (runLoop eff force total i st prs).cache p.1 = true := by
  intro prs
  induction prs with
  | nil => intro i st h; exact h
  | cons pr rest ih =>
    intro i st h
    apply ih
    intro p hp
    rcases processPR_obs eff force total i st pr with ⟨hc, ha⟩ | ⟨s, _, hc, ha⟩
    · rw [hc]
      exact h p (ha ▸ hp)
    · rw [hc]
      rcases List.mem_append.mp (ha ▸ hp) with hold | hnew
      · exact cacheHit_cacheSet_mono (h p hold) (prToStem pr)
      · rcases List.mem_singleton.mp hnew with rfl
        exact cacheHit_cacheSet_self st.cache (prToStem pr)

/-- C5 counterexample: with one PR successfully appended and a second PR
still pending (a strict prefix of the loop), the durable cache file is still
the empty image it held at run start — it does not contain the appended
PR's stem, contradicting the claimed crash-safety of the durable cache. -/
theorem C5_counterexample :
    (prToStem prAcme, "summary") ∈ (runSyncPrefix effOk false [] [prAcme, prNoDate] 1).appends ∧
    cacheHit (runSyncPrefix effOk false [] [prAcme, prNoDate] 1).disk (prToStem prAcme) = false ∧
    (runSyncPrefix effOk false [] [prAcme, prNoDate] 1).disk = [] := by
  decide

/-- C5 amended: after any prefix of the per-PR loop, every PR appended so far
in the run is recorded under its stem in the **in-memory** cache image
(recorded immediately after its append, before the next PR), while the
durable cache file is unchanged from run start — it is rewritten only once,
by `saveCache` at run end, so a crash mid-run loses the cache entries of
every PR appended during that run. -/
theorem C5_inmemory_recording (eff : PRRec → Fetch String) (force : Bool)
    (disk0 : Cache) (prs : List PRRec) (k : Nat) :
    (∀ p ∈ (runSyncPrefix eff force disk0 prs k).appends,
      cacheHit (runSyncPrefix eff force disk0 prs k).cache p.1 = true) ∧
    (runSyncPrefix eff force disk0 prs k).disk = disk0 := by
  constructor
  · apply runLoop_appends_recorded
    intro p hp
    exact absurd hp (List.not_mem_nil p)
  · exact runLoop_disk eff force prs.length (prs.take k) 0 (initState force disk0)

theorem C5_inmemory_recording_witness :
    cacheHit (runSyncPrefix effOk false [] [prAcme, prNoDate] 1).cache (prToStem prAcme) = true :=
  (C5_inmemory_recording effOk false [] [prAcme, prNoDate] 1).1
    (prToStem prAcme, "summary") (by decide)

theorem processPR_err_obs {eff : PRRec → Fetch String} {force : Bool} {total i : Nat}
    {st : SyncState} {pr : PRRec} (he : fetchErr (eff pr) = true) :
    (processPR eff force total i st pr).cache = st.cache ∧
    (processPR eff force total i st pr).appends = st.appends := by
  rcases processPR_obs eff force total i st pr with ⟨hc, ha⟩ | ⟨s, hs, _, _⟩
  · exact ⟨hc, ha⟩
  · rw [hs] at he
    simp [fetchErr] at he

theorem processPR_obs_congr (eff : PRRec → Fetch String) (force : Bool)
    (t1 t2 i1 i2 : Nat) {st1 st2 : SyncState} (pr : PRRec)
    (hc : st1.cache = st2.cache) (ha : st1.appends = st2.appends) :
    (processPR eff force t1 i1 st1 pr).cache = (processPR eff force t2 i2 st2 pr).cache ∧
    (processPR eff force t1 i1 st1 pr).appends = (processPR eff force t2 i2 st2 pr).appends := by
  simp only [processPR]
  rw [hc, ha]
  by_cases hcond : (cacheHit st2.cache (prToStem pr) && !force) = true
  · rw [if_pos hcond, if_pos hcond]
    exact ⟨rfl, rfl⟩
  · rw [if_neg hcond, if_neg hcond]
    split
    next s he => exact ⟨rfl, rfl⟩
    next m he => exact ⟨rfl, rfl⟩

theorem runLoop_obs_congr (eff : PRRec → Fetch String) (force : Bool) :
    ∀ (prs : List PRRec) (t1 t2 i1 i2 : Nat) (st1 st2 : SyncState),
      st1.cache = st2.cache → st1.appends = st2.appends →
      (runLoop eff force t1 i1 st1 prs).cache = (runLoop eff force t2 i2 st2 prs).cache ∧
      (runLoop eff force t1 i1 st1 prs).appends = (runLoop eff force t2 i2 st2 prs).appends := by
  intro prs
  induction prs with
  | nil =>
    intro t1 t2 i1 i2 st1 st2 hc ha
    exact ⟨hc, ha⟩
  | cons pr rest ih =>
    intro t1 t2 i1 i2 st1 st2 hc ha
    rw [runLoop, runLoop]
    have step := processPR_obs_congr eff force t1 t2 i1 i2 pr hc ha
    exact ih t1 t2 (i1 + 1) (i2 + 1) _ _ step.1 step.2

theorem runLoop_drop_err (eff : PRRec → Fetch String) :
    ∀ (pre post : List PRRec) (t1 t2 i1 i2 : Nat) (st1 st2 : SyncState) (bad : PRRec),
      fetchErr (eff bad) = true → st1.cache = st2.cache → st1.appends = st2.appends →
      (runLoop eff false t1 i1 st1 (pre ++ bad :: post)).cache =
        (runLoop eff false t2 i2 st2 (pre ++ post)).cache ∧
      (runLoop eff false t1 i1 st1 (pre ++ bad :: post)).appends =
        (runLoop eff false t2 i2 st2 (pre ++ post)).appends := by
  intro pre
  induction pre with
  | nil =>
    intro post t1 t2 i1 i2 st1 st2 bad hbad hc ha
    rw [List.nil_append, List.nil_append, runLoop]
    have step := @processPR_err_obs eff false t1 i1 st1 bad hbad
    exact runLoop_obs_congr eff false post t1 t2 (i1 + 1) i2 _ _
      (step.1.trans hc) (step.2.trans ha)
  | cons pr pre' ih =>
    intro post t1 t2 i1 i2 st1 st2 bad hbad hc ha
    rw [List.cons_append, List.cons_append, runLoop, runLoop]
    have step := processPR_obs_congr eff false t1 t2 i1 i2 pr hc ha
    exact ih post t1 t2 (i1 + 1) (i2 + 1) _ _ bad hbad step.1 step.2

/-- C6: a PR-local failure after collection is caught and logged with the
PR's stem and the error message, leaves the in-memory cache, the append
trace and the durable file unmodified for that stem, and the loop continues:
inserting a failing PR anywhere in the selection changes neither the
resulting cache image nor the note-store append calls of the sibling PRs. -/
theorem C6_pr_local_failure :
    (∀ (eff : PRRec → Fetch String) (total i : Nat) (st : SyncState) (pr : PRRec) (msg : String),
      cacheHit st.cache (prToStem pr) = false → eff pr = .err msg →
      (processPR eff false total i st pr).cache = st.cache ∧
      (processPR eff false total i st pr).appends = st.appends ∧
      (processPR eff false total i st pr).disk = st.disk ∧
      (processPR eff false total i st pr).log = st.log ++
        ["[" ++ Nat.repr (i + 1) ++ "/" ++ Nat.repr total ++ "] " ++
           jsOrDefault (jsOr pr.repoFullName pr.baseRepoFullName) "?" ++ " #" ++
           Nat.repr pr.number ++ " - enriching...",
         "[" ++ Nat.repr (i + 1) ++ "/" ++ Nat.repr total ++ "] " ++
           prToStem pr ++ " FAILED: " ++ msg]) ∧
    (∀ (eff : PRRec → Fetch String) (pre post : List PRRec) (t1 t2 i1 i2 : Nat)
       (st : SyncState) (bad : PRRec), fetchErr (eff bad) = true →
      (runLoop eff false t1 i1 st (pre ++ bad :: post)).cache =
        (runLoop eff false t2 i2 st (pre ++ post)).cache ∧
      (runLoop eff false t1 i1 st (pre ++ bad :: post)).appends =
        (runLoop eff false t2 i2 st (pre ++ post)).appends) := by
  constructor
  · intro eff total i st pr msg hhit he
    simp only [processPR]
    rw [if_neg (by simp [hhit]), he]
    exact ⟨rfl, rfl, rfl, rfl⟩
  · intro eff pre post t1 t2 i1 i2 st bad hbad
    exact runLoop_drop_err eff pre post t1 t2 i1 i2 st st bad hbad rfl rfl

theorem C6_pr_local_failure_witness :
    (processPR effBad false 1 0 (initState false []) prAcme).cache =
      (initState false []).cache ∧
    (runLoop effBad false 1 0 (initState false []) ([] ++ prAcme :: [])).appends =
      (runLoop effBad false 1 0 (initState false []) ([] ++ [])).appends :=
  ⟨(C6_pr_local_failure.1 effBad 1 0 (initState false []) prAcme "boom" (by decide) rfl).1,
   (C6_pr_local_failure.2 effBad [] [] 1 1 0 0 (initState false []) prAcme rfl).2⟩

theorem processPR_force (eff : PRRec → Fetch String) (total i : Nat)
    (st : SyncState) (pr : PRRec) :
    (processPR eff true total i st pr).processed = st.processed ++ [prToStem pr] ∧
    ((∃ s, eff pr = .ok s ∧
       (processPR eff true total i st pr).cache = cacheSet st.cache (prToStem pr) ∧
       (processPR eff true total i st pr).appends = st.appends ++ [(prToStem pr, s)]) ∨
     (∃ m, eff pr = .err m ∧
       (processPR eff true total i st pr).cache = st.cache ∧
       (processPR eff true total i st pr).appends = st.appends)) := by
  simp only [processPR]
  rw [if_neg (by simp)]
  split
  next s he => exact ⟨rfl, Or.inl ⟨s, he, rfl, rfl⟩⟩
  next m he => exact ⟨rfl, Or.inr ⟨m, he, rfl, rfl⟩⟩

theorem runLoop_force (eff : PRRec → Fetch String) (total : Nat) :
    ∀ (prs : List PRRec) (i : Nat) (st : SyncState),
      (runLoop eff true total i st prs).processed = st.processed ++ prs.map prToStem ∧
      (runLoop eff true total i st prs).appends = st.appends ++ prs.filterMap (fun pr =>
        match eff pr with
        | .ok s => some (prToStem pr, s)
        | .err _ => none) ∧
      (∀ k, k ∈ cacheKeys (runLoop eff true total i st prs).cache →
        k ∈ cacheKeys st.cache ∨ k ∈ prs.map prToStem) := by
  intro prs
  induction prs with
  | nil =>
    intro i st
    refine ⟨by simp [runLoop], by simp [runLoop], ?_⟩
    intro k hk
    exact Or.inl hk
  | cons pr rest ih =>
    intro i st
    rw [runLoop]
    have hstep := processPR_force eff total i st pr
    obtain ⟨ihp, iha, ihk⟩ := ih (i + 1) (processPR eff true total i st pr)
    refine ⟨?_, ?_, ?_⟩
    · rw [ihp, hstep.1, List.map_cons, List.append_assoc]
      rfl
    · rcases hstep.2 with ⟨s, he, _, ha⟩ | ⟨m, he, _, ha⟩
      · rw [iha, ha, List.filterMap_cons, he, List.append_assoc]
        rfl
      · rw [iha, ha, List.filterMap_cons, he]
    · intro k hk
      rcases ihk k hk with h' | h'
      · rcases hstep.2 with ⟨s, he, hc, _⟩ | ⟨m, he, hc, _⟩
        · rw [hc] at h'
          rcases cacheKeys_cacheSet h' with h'' | h''
          · exact Or.inl h''
          · exact Or.inr (by simp [h''])
        · rw [hc] at h'
          exact Or.inl h'
      · exact Or.inr (List.mem_cons_of_mem _ h')

/-- C7: force mode treats the loaded cache as empty on read, so every
selected PR is reprocessed (its stem enters the processed trace, in
selection order) and is appended again exactly when its
summarize/append sequence succeeds; at run end the persisted cache file is
rewritten from the in-memory image and holds no stem other than those of
the PRs processed in this run — nothing is carried over from the prior
cache file. -/
theorem C7_force_mode (eff : PRRec → Fetch String) (disk0 : Cache) (prs : List PRRec) :
    (runSync eff true disk0 prs).processed = prs.map prToStem ∧
    (runSync eff true disk0 prs).appends = prs.filterMap (fun pr =>
      match eff pr with
      | .ok s => some (prToStem pr, s)
      | .err _ => none) ∧
    (∀ k ∈ cacheKeys (runSync eff true disk0 prs).disk, k ∈ prs.map prToStem) ∧
    (runSync eff true disk0 prs).disk = (runSync eff true disk0 prs).cache := by
  have h := runLoop_force eff prs.length prs 0 (initState true disk0)
  refine ⟨?_, ?_, ?_, rfl⟩
  · simpa using h.1
  · simpa using h.2.1
  · intro k hk
    rcases h.2.2 k hk with h' | h'
    · simp [initState, cacheKeys] at h'
    · exact h'

theorem C7_force_mode_witness :
    prToStem prAcme ∈ [prAcme].map prToStem :=
  (C7_force_mode effOk [("stale", true)] [prAcme]).2.2.1 (prToStem prAcme) (by decide)

theorem lookup_isSome_iff_mem_keys {l : List (String × String)} {k : String} :
    (l.lookup k).isSome ↔ k ∈ l.map Prod.fst := by
  rw [List.lookup_isSome_iff]
  constructor
  · rintro ⟨p, hp, he⟩
    exact List.mem_map.mpr ⟨p, hp, (beq_iff_eq.mp he).symm⟩
  · intro h
    rcases List.mem_map.mp h with ⟨p, hp, he⟩
    exact ⟨p, hp, beq_iff_eq.mpr he.symm⟩

theorem firstSeenFrom_congr : ∀ (hs s1 s2 : List String),
    (∀ x, x ∈ s1 ↔ x ∈ s2) → firstSeenFrom s1 hs = firstSeenFrom s2 hs := by
  intro hs
  induction hs with
  | nil => intro _ _ _; rfl
  | cons h t ih =>
    intro s1 s2 he
    simp only [firstSeenFrom]
    by_cases hm : h ∈ s1
    · rw [if_pos hm, if_pos ((he h).mp hm)]
      exact ih s1 s2 he
    · rw [if_neg hm, if_neg (fun hx => hm ((he h).mpr hx))]
      rw [ih (h :: s1) (h :: s2) (by intro x; simp [he x])]

theorem firstSeenFrom_of_subset : ∀ (hs seen : List String), (∀ x ∈ hs, x ∈ seen) →
    firstSeenFrom seen hs = [] := by
  intro hs
  induction hs with
  | nil => intro _ _; rfl
  | cons h t ih =>
    intro seen hsub
    simp only [firstSeenFrom]
    rw [if_pos (hsub h (List.mem_cons_self h t))]
    exact ih seen (fun x hx => hsub x (List.mem_cons_of_mem h hx))

theorem foldl_hunkStep (cs : List ReviewComment) :
    ∀ st : HunkState,
      (cs.foldl hunkStep st).diffHunks = st.diffHunks ++
        tagFrom st.hunkIndex (firstSeenFrom (st.hunkToId.map Prod.fst) (truthyHunks cs)) ∧
      (cs.foldl hunkStep st).hunkToId = st.hunkToId ++
        (tagFrom st.hunkIndex (firstSeenFrom (st.hunkToId.map Prod.fst) (truthyHunks cs))).map
          (fun p => (p.2, p.1)) ∧
      (cs.foldl hunkStep st).hunkIndex = st.hunkIndex +
        (firstSeenFrom (st.hunkToId.map Prod.fst) (truthyHunks cs)).length := by
  induction cs with
  | nil => intro st; simp [truthyHunks, firstSeenFrom, tagFrom]
  | cons c rest ih =>
    intro st
    rw [List.foldl_cons]
    cases hdh : c.diff_hunk with
    | none =>
      have hstep : hunkStep st c = st := by simp [hunkStep, hdh]
      have hth : truthyHunks (c :: rest) = truthyHunks rest := by
        simp [truthyHunks, List.filterMap_cons, hdh]
      rw [hstep, hth]
      exact ih st
    | some h =>
      by_cases hemp : h = ""
      · have hstep : hunkStep st c = st := by simp [hunkStep, hdh, hemp]
        have hth : truthyHunks (c :: rest) = truthyHunks rest := by
          simp [truthyHunks, List.filterMap_cons, hdh, hemp]
        rw [hstep, hth]
        exact ih st
      · have hth : truthyHunks (c :: rest) = h :: truthyHunks rest := by
          simp [truthyHunks, List.filterMap_cons, hdh, hemp]
        by_cases hseen : (st.hunkToId.lookup h).isSome
        · have hstep : hunkStep st c = st := by simp [hunkStep, hdh, hemp, hseen]
          have hmem : h ∈ st.hunkToId.map Prod.fst := lookup_isSome_iff_mem_keys.mp hseen
          have hfs : firstSeenFrom (st.hunkToId.map Prod.fst) (h :: truthyHunks rest) =
              firstSeenFrom (st.hunkToId.map Prod.fst) (truthyHunks rest) := by
            simp [firstSeenFrom, hmem]
          rw [hstep, hth, hfs]
          exact ih st
        · have hmem : h ∉ st.hunkToId.map Prod.fst :=
            fun hm => hseen (lookup_isSome_iff_mem_keys.mpr hm)
          have hstep : hunkStep st c =
              ⟨st.hunkToId ++ [(h, "hunk_" ++ Nat.repr (st.hunkIndex + 1))],
               st.diffHunks ++ [("hunk_" ++ Nat.repr (st.hunkIndex + 1), h)],
               st.hunkIndex + 1⟩ := by
            simp [hunkStep, hdh, hemp, hseen]
          rw [hstep, hth]
          obtain ⟨e1, e2, e3⟩ := ih
            ⟨st.hunkToId ++ [(h, "hunk_" ++ Nat.repr (st.hunkIndex + 1))],
             st.diffHunks ++ [("hunk_" ++ Nat.repr (st.hunkIndex + 1), h)],
             st.hunkIndex + 1⟩

          rw [e1, e2, e3]
          dsimp only
          have hkeys : (st.hunkToId ++
              [(h, "hunk_" ++ Nat.repr (st.hunkIndex + 1))]).map Prod.fst =
              st.hunkToId.map Prod.fst ++ [h] := by simp
          have hcong : firstSeenFrom (st.hunkToId.map Prod.fst ++ [h]) (truthyHunks rest) =
              firstSeenFrom (h :: st.hunkToId.map Prod.fst) (truthyHunks rest) :=
            firstSeenFrom_congr _ _ _ (by intro x; simp [or_comm])
          have hfs : firstSeenFrom (st.hunkToId.map Prod.fst) (h :: truthyHunks rest) =
              h :: firstSeenFrom (h :: st.hunkToId.map Prod.fst) (truthyHunks rest) := by
            simp [firstSeenFrom, hmem]
          rw [hkeys, hcong, hfs]
          refine ⟨?_, ?_, ?_⟩
          · rw [tagFrom, List.append_assoc]
            rfl
          · rw [tagFrom, List.map_cons, List.append_assoc]
            rfl
          · rw [List.length_cons]
            omega

theorem buildHunks_table (cs : List ReviewComment) :
    (buildHunks cs).diffHunks = tagFrom 0 (firstSeen (truthyHunks cs)) ∧
    (buildHunks cs).hunkToId =
      (tagFrom 0 (firstSeen (truthyHunks cs))).map (fun p => (p.2, p.1)) := by
  obtain ⟨e1, e2, _⟩ := foldl_hunkStep cs ⟨[], [], 0⟩
  exact ⟨by simpa [firstSeen] using e1, by simpa [firstSeen] using e2⟩

theorem firstSeen_const {h : String} : ∀ (l : List String), l ≠ [] → (∀ x ∈ l, x = h) →
    firstSeen l = [h] := by
  intro l hne hall
  cases l with
  | nil => exact absurd rfl hne
  | cons a t =>
    have ha : a = h := hall a (List.mem_cons_self a t)
    subst ha
    show firstSeenFrom [] (a :: t) = [a]
    simp only [firstSeenFrom, List.not_mem_nil, if_neg (fun h => h)]
    rw [firstSeenFrom_of_subset t [a]
      (fun x hx => by rw [hall x (List.mem_cons_of_mem a hx)]; exact List.mem_singleton_self a)]

theorem truthyHunks_all_eq {cs : List ReviewComment} {h : String} (hemp : h ≠ "")
    (hall : ∀ c ∈ cs, c.diff_hunk = some h) :
    (∀ x ∈ truthyHunks cs, x = h) ∧ (cs ≠ [] → truthyHunks cs ≠ []) := by
  constructor
  · intro x hx
    rcases List.mem_filterMap.mp hx with ⟨c, hc, hxc⟩
    rw [hall c hc] at hxc
    simp only [if_neg hemp] at hxc
    exact (Option.some_inj.mp hxc).symm
  · intro hne
    cases cs with
    | nil => exact absurd rfl hne
    | cons c rest =>
      have hc := hall c (List.mem_cons_self c rest)
      simp [truthyHunks, List.filterMap_cons, hc, hemp]

/-- C1: hunk identifiers are assigned in first-seen order over the review
comments.  In general the assembled hunk table is exactly the first-seen
de-duplication of the non-empty diff contexts tagged `hunk_1, hunk_2, ...`
in order; hence N comments sharing one context produce a one-entry table
with every comment referencing `hunk_1`, and contexts `[A, B, A, C]` produce
the table `A → hunk_1, B → hunk_2, C → hunk_3` with the third comment
reusing `hunk_1`. -/
theorem C1_hunk_identifiers :
    (∀ cs : List ReviewComment,
      (buildHunks cs).diffHunks = tagFrom 0 (firstSeen (truthyHunks cs))) ∧
    (∀ (e : EnrichedPR) (h : String), h ≠ "" → e.reviewComments ≠ [] →
      (∀ c ∈ e.reviewComments, c.diff_hunk = some h) →
      (prToLLMPackage e).diffHunks = some [("hunk_1", h)] ∧
      ∀ c ∈ (prToLLMPackage e).comments, c.hunkRef = some "hunk_1") ∧
    (∀ (e : EnrichedPR) (A B C p1 b1 p2 b2 p3 b3 p4 b4 : String),
      A ≠ "" → B ≠ "" → C ≠ "" → A ≠ B → A ≠ C → B ≠ C →
      e.reviewComments =
        [⟨p1, b1, some A⟩, ⟨p2, b2, some B⟩, ⟨p3, b3, some A⟩, ⟨p4, b4, some C⟩] →
      (prToLLMPackage e).diffHunks = some [("hunk_1", A), ("hunk_2", B), ("hunk_3", C)] ∧
      (prToLLMPackage e).comments = [⟨p1, b1, some "hunk_1"⟩, ⟨p2, b2, some "hunk_2"⟩,
        ⟨p3, b3, some "hunk_1"⟩, ⟨p4, b4, some "hunk_3"⟩]) := by
  refine ⟨fun cs => (buildHunks_table cs).1, ?_, ?_⟩
  · intro e h hemp hne hall
    have htr := truthyHunks_all_eq hemp hall
    have hfs : firstSeen (truthyHunks e.reviewComments) = [h] :=
      firstSeen_const (truthyHunks e.reviewComments) (htr.2 hne) htr.1
    have htab : (buildHunks e.reviewComments).diffHunks = [("hunk_1", h)] := by
      rw [(buildHunks_table e.reviewComments).1, hfs]
      rfl
    have htbl : (buildHunks e.reviewComments).hunkToId = [(h, "hunk_1")] := by
      rw [(buildHunks_table e.reviewComments).2, hfs]
      rfl
    constructor
    · show (if (buildHunks e.reviewComments).diffHunks = [] then none
        else some (buildHunks e.reviewComments).diffHunks) = some [("hunk_1", h)]
      rw [htab]
      simp
    · intro c hc
      have hc' : c ∈ e.reviewComments.map (commentOut (buildHunks e.reviewComments).hunkToId) :=
        hc
      rcases List.mem_map.mp hc' with ⟨c0, hc0, hcc⟩
      rw [← hcc, htbl]
      have hdh := hall c0 hc0
      simp [commentOut, hdh, hemp]
  · intro e A B C p1 b1 p2 b2 p3 b3 p4 b4 hA hB hC hAB hAC hBC hcs
    have hBA : B ≠ A := Ne.symm hAB
    have hCA : C ≠ A := Ne.symm hAC
    have hCB : C ≠ B := Ne.symm hBC
    have hth : truthyHunks e.reviewComments = [A, B, A, C] := by
      rw [hcs]
      simp [truthyHunks, List.filterMap_cons, hA, hB, hC]
    have hfs : firstSeen (truthyHunks e.reviewComments) = [A, B, C] := by
      rw [hth]
      simp [firstSeen, firstSeenFrom, hBA, hCA, hCB]
    have htab : (buildHunks e.reviewComments).diffHunks =
        [("hunk_1", A), ("hunk_2", B), ("hunk_3", C)] := by
      rw [(buildHunks_table e.reviewComments).1, hfs]
      rfl
    have htbl : (buildHunks e.reviewComments).hunkToId =
        [(A, "hunk_1"), (B, "hunk_2"), (C, "hunk_3")] := by
      rw [(buildHunks_table e.reviewComments).2, hfs]
      rfl
    constructor
    · show (if (buildHunks e.reviewComments).diffHunks = [] then none
        else some (buildHunks e.reviewComments).diffHunks) = _
      rw [htab]
      simp
    · show e.reviewComments.map (commentOut (buildHunks e.reviewComments).hunkToId) = _
      rw [htbl, hcs]
      have hBAb : (B == A) = false := by simp [hBA]
      have hCAb : (C == A) = false := by simp [hCA]
      have hCBb : (C == B) = false := by simp [hCB]
      simp [commentOut, hA, hB, hC, List.lookup_cons, hBAb, hCAb, hCBb]

theorem C1_hunk_identifiers_witness :
    (prToLLMPackage enrichedSame).diffHunks = some [("hunk_1", "@@ctx")] ∧
    (prToLLMPackage enrichedABAC).comments =
      [⟨"f.js", "c1", some "hunk_1"⟩, ⟨"g.js", "c2", some "hunk_2"⟩,
       ⟨"h.js", "c3", some "hunk_1"⟩, ⟨"i.js", "c4", some "hunk_3"⟩] :=
  ⟨(C1_hunk_identifiers.2.1 enrichedSame "@@ctx" (by decide) (by decide) (by decide)).1,
   (C1_hunk_identifiers.2.2 enrichedABAC "ctxA" "ctxB" "ctxC" "f.js" "c1" "g.js" "c2"
     "h.js" "c3" "i.js" "c4" (by decide) (by decide) (by decide) (by decide) (by decide)
     (by decide) rfl).2⟩

theorem hscan_no_star (mid : List Char) (hstar : ∀ c ∈ mid, c ≠ '*' ∧ isLineTerm c = false) :
    ∀ acc : List Char, acc ≠ [] ∨ mid ≠ [] →
      hscan acc (mid ++ ['*', '*']) = some (acc.reverse ++ mid) := by
  induction mid with
  | nil =>
    intro acc hne
    rcases hne with h | h
    · show hscan acc ['*', '*'] = some (acc.reverse ++ [])
      simp only [hscan]
      rw [if_pos (by simp [closesHeading, List.isEmpty_eq_false.mpr h])]
      simp
    · exact absurd rfl h
  | cons c mid' ih =>
    intro acc _
    have hc := hstar c (List.mem_cons_self c mid')
    show hscan acc (c :: (mid' ++ ['*', '*'])) = some (acc.reverse ++ c :: mid')
    simp only [hscan]
    rw [if_neg (by simp [closesHeading, hc.1]), if_neg (by simp [hc.2])]
    rw [ih (fun x hx => hstar x (List.mem_cons_of_mem c hx)) (c :: acc) (Or.inl (by simp))]
    simp

/-- C10: the parser's three line shapes and blank-line dropping: the spec's
concrete input yields exactly heading("Problem"), bulleted-item("bullet
one"), paragraph("plain text"); a trimmed line wholly wrapped in
double-asterisks (optionally dash-bullet-prefixed) becomes a heading block
carrying the wrapped text; a line beginning with an asterisk followed by a
space and plain text becomes a bulleted list-item block; a non-blank line
matching neither regex becomes a paragraph block; an input of entirely
blank lines produces no blocks. -/
theorem C10_markdown_blocks :
    markdownToNotionBlocks "**Problem**\n* bullet one\nplain text" =
      [⟨.heading_2, [("Problem", false)]⟩, ⟨.bulleted_list_item, [("bullet one", false)]⟩,
       ⟨.paragraph, [("plain text", false)]⟩] ∧
    (∀ mid : List Char, mid ≠ [] →
      (∀ c ∈ mid, c ≠ '*' ∧ isLineTerm c = false) →
      lineToBlock ('*' :: '*' :: (mid ++ ['*', '*'])) =
        some (mkBlock .heading_2 ⟨mid⟩ false) ∧
      lineToBlock ('-' :: ' ' :: '*' :: '*' :: (mid ++ ['*', '*'])) =
        some (mkBlock .heading_2 ⟨mid⟩ false)) ∧
    (∀ (c : Char) (rest : List Char), isJsWS c = false → c ≠ '*' → isLineTerm c = false →
      (∀ x ∈ rest, isLineTerm x = false) →
      lineToBlock ('*' :: ' ' :: c :: rest) =
        some (mkBlock .bulleted_list_item ⟨c :: rest⟩ false)) ∧
    (∀ t : List Char, t ≠ [] → headingMatch t = none → bulletMatch t = none →
      lineToBlock t = some (mkBlock .paragraph ⟨t⟩ false)) ∧
    (∀ md : String, (∀ l ∈ splitLines md.data, jsTrimL l = []) →
      markdownToNotionBlocks md = []) := by
  refine ⟨by decide, ?_, ?_, ?_, ?_⟩
  · intro mid hne hstar
    have hm : headingMatch ('*' :: '*' :: (mid ++ ['*', '*'])) = some mid := by
      show hscan [] (mid ++ ['*', '*']) = some mid
      rw [hscan_no_star mid hstar [] (Or.inr hne)]
      simp
    have hm2 : headingMatch ('-' :: ' ' :: '*' :: '*' :: (mid ++ ['*', '*'])) = some mid := by
      show hscan [] (mid ++ ['*', '*']) = some mid
      rw [hscan_no_star mid hstar [] (Or.inr hne)]
      simp
    constructor
    · simp [lineToBlock, hm]
    · simp [lineToBlock, hm2]
  · intro c rest hws hstar hlt hall
    have hmn : headingMatch ('*' :: ' ' :: c :: rest) = none := rfl
    have hb : bulletMatch ('*' :: ' ' :: c :: rest) = some (c :: rest) := by
      show wsThenRest (' ' :: c :: rest) = some (c :: rest)
      have hdot : dotPlusEnd (c :: rest) = some (c :: rest) := by
        unfold dotPlusEnd
        rw [if_pos]
        refine ⟨by simp, ?_⟩
        rw [List.all_eq_true]
        intro x hx
        rcases List.mem_cons.mp hx with rfl | hx'
        · simp [hlt]
        · simp [hall x hx']
      have hinner : wsThenRest (c :: rest) = some (c :: rest) := by
        rw [wsThenRest, if_neg (by simp [hws])]
        exact hdot
      rw [wsThenRest, if_pos (by decide), hinner]
    simp [lineToBlock, hmn, hb]
  · intro t hne h1 h2
    simp [lineToBlock, hne, h1, h2]
  · intro md h
    apply List.filterMap_eq_nil_iff.mpr
    intro l hl
    rw [h l hl]
    rfl

theorem C10_markdown_blocks_witness :
    lineToBlock ('*' :: '*' :: ("Head".data ++ ['*', '*'])) =
      some (mkBlock .heading_2 "Head" false) ∧
    lineToBlock ('*' :: ' ' :: 'x' :: []) =
      some (mkBlock .bulleted_list_item "x" false) ∧
    lineToBlock "hello".data = some (mkBlock .paragraph "hello" false) :=
  ⟨(C10_markdown_blocks.2.1 "Head".data (by decide) (by decide)).1,
   C10_markdown_blocks.2.2.1 'x' [] (by decide) (by decide) (by decide) (by decide),
   C10_markdown_blocks.2.2.2.1 "hello".data (by decide) (by decide) (by decide)⟩

theorem C4_merged_only_witness :
    (collectedOf (getFullTwo "acme" "widgets" 1)).merged_at ≠ none :=
  C4_merged_only.1 searchTwo getFullTwo 1 1 _
    (by
      rw [show fetchLoop searchTwo getFullTwo 1 1 = fetchMergedPRsForUser searchTwo getFullTwo 1
            from rfl,
          C4_merged_only.2]
      exact List.mem_singleton_self _)

/-- C9 counterexample: the stems of `prSlash` (repo "a/b", merged 10:00) and
`prUnderscore` (repo "a_b", merged 11:00) coincide although the two PRs
differ in both the repo full name and the merge date of their identity
triples: slashes are normalized to underscores and the merge date is
truncated to its day before entering the stem. -/
theorem C9_counterexample :
    prToStem prSlash = prToStem prUnderscore ∧
    prSlash.repoFullName ≠ prUnderscore.repoFullName ∧
    prSlash.merged_at ≠ prUnderscore.merged_at ∧
    prSlash.number = prUnderscore.number := by
  decide

theorem toDigitsCore_eq (fuel : Nat) : ∀ (n : Nat) (ds : List Char), n < fuel →
    Nat.toDigitsCore 10 fuel n ds = decimalDigits n ++ ds := by
  induction fuel with
  | zero => intro n ds h; exact absurd h (Nat.not_lt_zero n)
  | succ f ih =>
    intro n ds h
    simp only [Nat.toDigitsCore]
    by_cases h0 : n / 10 = 0
    · rw [if_pos h0]
      by_cases hn : n = 0
      · subst hn
        rfl
      · have hlt : n < 10 := by omega
        unfold decimalDigits
        rw [if_neg hn, Nat.digits_def' (by norm_num : (1:Nat) < 10) (Nat.pos_of_ne_zero hn),
          h0, Nat.digits_zero]
        rfl
    · rw [if_neg h0]
      have hn : n ≠ 0 := by omega
      have hrec : n / 10 < f := by omega
      rw [ih (n / 10) (Nat.digitChar (n % 10) :: ds) hrec]
      have e1 : decimalDigits n =
          decimalDigits (n / 10) ++ [Nat.digitChar (n % 10)] := by
        unfold decimalDigits
        rw [if_neg hn, if_neg h0,
          Nat.digits_def' (by norm_num : (1:Nat) < 10) (Nat.pos_of_ne_zero hn),
          List.map_cons, List.reverse_cons]
      rw [e1, List.append_assoc]
      rfl

theorem repr_data (n : Nat) : (Nat.repr n).data = decimalDigits n := by
  show (Nat.toDigits 10 n).asString.data = decimalDigits n
  unfold Nat.toDigits
  rw [toDigitsCore_eq (n + 1) n [] (Nat.lt_succ_self n)]
  simp [List.asString]

theorem digitChar_isDigit {d : Nat} (h : d < 10) : (Nat.digitChar d).isDigit = true := by
  interval_cases d <;> decide

theorem decimalDigits_digits (n : Nat) : ∀ c ∈ decimalDigits n, c.isDigit = true := by
  intro c hc
  unfold decimalDigits at hc
  split at hc
  · rw [List.mem_singleton] at hc
    subst hc
    decide
  · rw [List.mem_reverse] at hc
    rcases List.mem_map.mp hc with ⟨d, hd, he⟩
    rw [← he]
    exact digitChar_isDigit (Nat.digits_lt_base (by norm_num) hd)

theorem decimalDigits_ne_nil (n : Nat) : decimalDigits n ≠ [] := by
  unfold decimalDigits
  split
  · simp
  next hn => simp [Nat.digits_ne_nil_iff_ne_zero.mpr hn]

theorem digitChar_inj_lt {a b : Nat} (ha : a < 10) (hb : b < 10)
    (h : Nat.digitChar a = Nat.digitChar b) : a = b := by
  interval_cases a <;> interval_cases b <;> revert h <;> decide

theorem map_digitChar_inj : ∀ (l1 l2 : List Nat), (∀ x ∈ l1, x < 10) → (∀ x ∈ l2, x < 10) →
    l1.map Nat.digitChar = l2.map Nat.digitChar → l1 = l2 := by
  intro l1
  induction l1 with
  | nil =>
    intro l2 _ _ h
    cases l2 with
    | nil => rfl
    | cons b t2 => simp at h
  | cons a t ih =>
    intro l2 h1 h2 h
    cases l2 with
    | nil => simp at h
    | cons b t2 =>
      simp only [List.map_cons, List.cons.injEq] at h
      have hab := digitChar_inj_lt (h1 a (List.mem_cons_self a t))
        (h2 b (List.mem_cons_self b t2)) h.1
      rw [hab, ih t2 (fun x hx => h1 x (List.mem_cons_of_mem a hx))
        (fun x hx => h2 x (List.mem_cons_of_mem b hx)) h.2]

theorem decimalDigits_inj {n m : Nat} (h : decimalDigits n = decimalDigits m) : n = m := by
  unfold decimalDigits at h
  by_cases hn : n = 0 <;> by_cases hm : m = 0
  · rw [hn, hm]
  · rw [if_pos hn, if_neg hm] at h
    exfalso
    have h' : (Nat.digits 10 m).map Nat.digitChar = List.map Nat.digitChar [0] := by
      have := congrArg List.reverse h
      simpa using this.symm
    have hd : Nat.digits 10 m = [0] :=
      map_digitChar_inj _ _ (fun x hx => Nat.digits_lt_base (by norm_num) hx)
        (by intro x hx; rw [List.mem_singleton] at hx; omega) h'
    have : m = 0 := by
      have := Nat.ofDigits_digits 10 m
      rw [hd] at this
      simpa [Nat.ofDigits] using this.symm
    exact hm this
  · rw [if_neg hn, if_pos hm] at h
    exfalso
    have h' : (Nat.digits 10 n).map Nat.digitChar = List.map Nat.digitChar [0] := by
      have := congrArg List.reverse h
      simpa using this
    have hd : Nat.digits 10 n = [0] :=
      map_digitChar_inj _ _ (fun x hx => Nat.digits_lt_base (by norm_num) hx)
        (by intro x hx; rw [List.mem_singleton] at hx; omega) h'
    have : n = 0 := by
      have := Nat.ofDigits_digits 10 n
      rw [hd] at this
      simpa [Nat.ofDigits] using this.symm
    exact hn this
  · rw [if_neg hn, if_neg hm] at h
    have h' := List.reverse_injective h
    have hd := map_digitChar_inj _ _ (fun x hx => Nat.digits_lt_base (by norm_num) hx)
      (fun x hx => Nat.digits_lt_base (by norm_num) hx) h'
    exact Nat.digits_inj_iff.mp hd

theorem split_at_first_not (p : Char → Prop) :
    ∀ (as cs : List Char) (b d : Char) (bs ds : List Char),
      (∀ x ∈ as, p x) → (∀ x ∈ cs, p x) → ¬p b → ¬p d →
      as ++ b :: bs = cs ++ d :: ds → as = cs ∧ b = d ∧ bs = ds := by
  intro as
  induction as with
  | nil =>
    intro cs b d bs ds _ hcs hb hd h
    cases cs with
    | nil =>
      simp only [List.nil_append, List.cons.injEq] at h
      exact ⟨rfl, h.1, h.2⟩
    | cons c ct =>
      simp only [List.nil_append, List.cons_append, List.cons.injEq] at h
      exact absurd (h.1 ▸ hcs c (List.mem_cons_self c ct)) hb
  | cons a as' ih =>
    intro cs b d bs ds has hcs hb hd h
    cases cs with
    | nil =>
      simp only [List.cons_append, List.nil_append, List.cons.injEq] at h
      exact absurd (h.1 ▸ has a (List.mem_cons_self a as')) hd
    | cons c ct =>
      simp only [List.cons_append, List.cons.injEq] at h
      obtain ⟨rfl, h2⟩ := h
      obtain ⟨e1, e2, e3⟩ := ih ct b d bs ds
        (fun x hx => has x (List.mem_cons_of_mem a hx))
        (fun x hx => hcs x (List.mem_cons_of_mem a hx)) hb hd h2
      exact ⟨by rw [e1], e2, e3⟩

theorem prToStem_data_rev (pr : PRRec) :
    ((prToStem pr).data).reverse =
      (mergedSlot pr).data.reverse ++ '_' ::
        ((Nat.repr pr.number).data.reverse ++ 'R' :: 'P' :: '_' ::
          (slashToUnderscore (repoNameOf pr)).data.reverse) := by
  simp [prToStem, String.data_append, List.reverse_append]

/-- C9 amended: the stem deriver is collision-resistant for the rendered
identity triple: two PRs whose (slash-normalized repo name, number,
day-truncated merge date) triples differ derive distinct stems, provided
each rendered date slot contains no underscore (which holds for every
ISO-8601 timestamp and for the literal "unknown" fallback).  Over the raw
(repo full name, number, merge date) triple the claim is false — see the
counterexample: slash/underscore repo names collide after normalization and
merge dates differing only in time of day collide after truncation. -/
theorem C9_stem_collision_resistant (pr1 pr2 : PRRec)
    (h1 : ∀ c ∈ (mergedSlot pr1).data, c ≠ '_')
    (h2 : ∀ c ∈ (mergedSlot pr2).data, c ≠ '_')
    (hne : (slashToUnderscore (repoNameOf pr1), pr1.number, mergedSlot pr1) ≠
           (slashToUnderscore (repoNameOf pr2), pr2.number, mergedSlot pr2)) :
    prToStem pr1 ≠ prToStem pr2 := by
  intro heq
  apply hne
  have hdata : ((prToStem pr1).data).reverse = ((prToStem pr2).data).reverse := by
    rw [heq]
  rw [prToStem_data_rev, prToStem_data_rev] at hdata
  obtain ⟨hday, _, hrest⟩ := split_at_first_not (fun c => c ≠ '_')
    _ _ _ _ _ _
    (fun x hx => h1 x (List.mem_reverse.mp hx))
    (fun x hx => h2 x (List.mem_reverse.mp hx))
    (by simp) (by simp) hdata
  obtain ⟨hnum, _, hrepo⟩ := split_at_first_not (fun c => c.isDigit = true)
    _ _ _ _ _ _
    (fun x hx => by
      rw [List.mem_reverse, repr_data] at hx
      exact decimalDigits_digits _ x hx)
    (fun x hx => by
      rw [List.mem_reverse, repr_data] at hx
      exact decimalDigits_digits _ x hx)
    (by decide) (by decide) hrest
  have hday' : mergedSlot pr1 = mergedSlot pr2 :=
    String.ext (List.reverse_injective hday)
  have hnum' : pr1.number = pr2.number := by
    apply decimalDigits_inj
    rw [← repr_data, ← repr_data]
    exact List.reverse_injective hnum
  have hrepo' : slashToUnderscore (repoNameOf pr1) = slashToUnderscore (repoNameOf pr2) := by
    apply String.ext
    apply List.reverse_injective
    simpa using hrepo
  rw [hday', hnum', hrepo']

theorem C9_stem_collision_resistant_witness :
    prToStem prAcme ≠ prToStem prNoDate :=
  C9_stem_collision_resistant prAcme prNoDate (by decide) (by decide) (by decide)

end CodeDiary
